import Mathlib

/-!
Verification development for the manufacturing discrete-event simulation
(`ManufacturingSystem.py`).  Simulated time is modelled by the rationals;
the cooperative processes of the source are embedded as explicit state
machines, and the stochastic samples drawn by the source are universally
quantified inputs constrained to the intervals the source samples from.
-/

namespace MfgSys

/-- Pipeline stages of the system, in the order of `run_production`. -/
inductive Stage
  | machining
  | assembly
  | quality_control
  | packaging
deriving DecidableEq, Repr

/-- Metrics fields of `ManufacturingSystem.__init__` (lines 42-54):
`total_products_produced`, the per-stage `total_waiting_times` buckets and
the per-stage `processed_parts` counters. -/
structure Metrics where
  total_products_produced : ℕ
  total_waiting_times : Stage → ℚ
  processed_parts : Stage → ℕ

/-- Initial metrics state, from `__init__`: every counter and bucket is zero. -/
def initMetrics : Metrics :=
  { total_products_produced := 0
    total_waiting_times := fun _ => 0
    processed_parts := fun _ => 0 }

/-- Bookkeeping a stage process performs when a unit completes at that stage:
add the computed `wait_time` to the stage's bucket and bump the stage's
`processed_parts` counter (lines 74-75, 89-90, 100-101, 111-112); only
`packaging_process` additionally increments `total_products_produced`
(line 114). -/
def recordCompletion (m : Metrics) (s : Stage) (w : ℚ) : Metrics :=
  { total_products_produced :=
      if s = Stage.packaging then m.total_products_produced + 1
      else m.total_products_produced
    total_waiting_times :=
      Function.update m.total_waiting_times s (m.total_waiting_times s + w)
    processed_parts :=
      Function.update m.processed_parts s (m.processed_parts s + 1) }

/-- Folding a whole run's sequence of stage completions over the metrics. -/
def runMetrics (evs : List (Stage × ℚ)) : Metrics :=
  evs.foldl (fun m ev => recordCompletion m ev.1 ev.2) initMetrics

lemma recordCompletion_pack_eq (m : Metrics) (s : Stage) (w : ℚ)
    (h : m.processed_parts Stage.packaging = m.total_products_produced) :
    (recordCompletion m s w).processed_parts Stage.packaging =
      (recordCompletion m s w).total_products_produced := by
  rcases s with _ | _ | _ | _ <;>
    simp [recordCompletion, Function.update, h]

lemma foldl_pack_eq (evs : List (Stage × ℚ)) :
    ∀ m : Metrics,
      m.processed_parts Stage.packaging = m.total_products_produced →
      (evs.foldl (fun m ev => recordCompletion m ev.1 ev.2) m).processed_parts
          Stage.packaging =
        (evs.foldl (fun m ev => recordCompletion m ev.1 ev.2)
            m).total_products_produced := by
  induction evs with
  | nil => intro m h; simpa using h
  | cons ev rest ih =>
      intro m h
      simpa using ih (recordCompletion m ev.1 ev.2)
        (recordCompletion_pack_eq m ev.1 ev.2 h)

/-- Claim C6: after any sequence of stage completions (hence after every step
of every run), the packaging stage's `processed_parts` counter equals
`total_products_produced`: `packaging_process` increments both together and
no other stage touches `total_products_produced`. -/
theorem packaging_count_eq_total (evs : List (Stage × ℚ)) :
    (runMetrics evs).processed_parts Stage.packaging =
      (runMetrics evs).total_products_produced := by
  exact foldl_pack_eq evs initMetrics (by simp [initMetrics])

/-! ### The machine-slot selection helper (`get_available_machine`, lines 129-133) -/

/-- Body of the `for i in range(...)` loop of `get_available_machine`: at each
index `i` it tests `self.machining.count < self.machining.capacity` (a
condition that does not depend on `i`) and returns `i` on the first success;
falling off the loop returns nothing. -/
def gamLoop (count capacity : ℕ) : List ℕ → Option ℕ
  | [] => none
  | i :: rest => if count < capacity then some i else gamLoop count capacity rest

/-- Embedding of `ManufacturingSystem.get_available_machine` (lines 129-133):
iterate `gamLoop` over `range(len(self.machine_setup))` and fall back to the
trailing `return 0`. -/
def get_available_machine (machine_len count capacity : ℕ) : ℕ :=
  (gamLoop count capacity (List.range machine_len)).getD 0

lemma gamLoop_of_not_lt (count capacity : ℕ) (h : ¬ count < capacity) :
    ∀ l : List ℕ, gamLoop count capacity l = none := by
  intro l
  induction l with
  | nil => rfl
  | cons i rest ih => simp [gamLoop, h, ih]

lemma gamLoop_of_lt (count capacity : ℕ) (h : count < capacity) :
    ∀ l : List ℕ, gamLoop count capacity l = l.head? := by
  intro l
  cases l with
  | nil => rfl
  | cons i rest => simp [gamLoop, h]

lemma gam_eq_zero (machine_len count capacity : ℕ) :
    get_available_machine machine_len count capacity = 0 := by
  unfold get_available_machine
  by_cases h : count < capacity
  · rw [gamLoop_of_lt count capacity h]
    cases machine_len with
    | zero => rfl
    | succ m => simp [List.range_succ_eq_map]
  · rw [gamLoop_of_not_lt count capacity h]
    rfl

/-- Claim C8: `get_available_machine` returns slot id 0 for every machine
count, every in-use count and every capacity — it is constant, so it cannot
reflect which physical slot the current request was actually granted. -/
theorem get_available_machine_const (machine_len count capacity : ℕ) :
    get_available_machine machine_len count capacity = 0 :=
  gam_eq_zero machine_len count capacity

/-! ### Machine setup tracking (`machining_process` lines 63-68) -/

/-- Setup-tracking state of `__init__` lines 38-39: `machine_setup` maps a
slot id to the last-configured product type (initially `None`) and
`setup_time` maps a slot id to its cumulative setup time (initially 0). -/
structure SetupState where
  machine_setup : ℕ → Option String
  setup_time : ℕ → ℚ

/-- Initial setup-tracking state (lines 38-39). -/
def initSetup : SetupState :=
  { machine_setup := fun _ => none, setup_time := fun _ => 0 }

/-- Data observed by one execution of the setup block of `machining_process`:
the unit's product type, the sampled setup duration, and the live
`machining` resource counters passed to `get_available_machine`. -/
structure MachiningVisit where
  product_type : String
  sampled_setup : ℚ
  machine_len : ℕ
  count : ℕ
  capacity : ℕ

/-- Embedding of lines 63-68 of `machining_process`: pick
`machine_id = get_available_machine(...)`; when the slot's recorded product
type differs from the unit's, record the new product type and add the
sampled setup duration to that slot's cumulative setup time. -/
def machiningSetupStep (st : SetupState) (v : MachiningVisit) : SetupState :=
  let machine_id := get_available_machine v.machine_len v.count v.capacity
  if st.machine_setup machine_id ≠ some v.product_type then
    { machine_setup :=
        Function.update st.machine_setup machine_id (some v.product_type)
      setup_time :=
        Function.update st.setup_time machine_id
          (st.setup_time machine_id + v.sampled_setup) }
  else st

/-- Setup-tracking state after a whole run's sequence of machining visits. -/
def runSetup (vs : List MachiningVisit) : SetupState :=
  vs.foldl machiningSetupStep initSetup

lemma machiningSetupStep_frame (st : SetupState) (v : MachiningVisit)
    (i : ℕ) (hi : 1 ≤ i) :
    (machiningSetupStep st v).machine_setup i = st.machine_setup i ∧
      (machiningSetupStep st v).setup_time i = st.setup_time i := by
  have h0 : get_available_machine v.machine_len v.count v.capacity = 0 :=
    gam_eq_zero v.machine_len v.count v.capacity
  have hne : i ≠ get_available_machine v.machine_len v.count v.capacity := by
    rw [h0]; omega
  unfold machiningSetupStep
  by_cases h : st.machine_setup
      (get_available_machine v.machine_len v.count v.capacity) ≠
      some v.product_type
  · rw [if_pos h]
    exact ⟨Function.update_noteq hne _ _, Function.update_noteq hne _ _⟩
  · rw [if_neg h]
    exact ⟨rfl, rfl⟩

lemma runSetup_frame_aux (vs : List MachiningVisit) :
    ∀ st : SetupState, ∀ i : ℕ, 1 ≤ i →
      (vs.foldl machiningSetupStep st).machine_setup i = st.machine_setup i ∧
        (vs.foldl machiningSetupStep st).setup_time i = st.setup_time i := by
  induction vs with
  | nil => intro st i _; exact ⟨rfl, rfl⟩
  | cons v rest ih =>
      intro st i hi
      have hstep := machiningSetupStep_frame st v i hi
      have hrest := ih (machiningSetupStep st v) i hi
      simp only [List.foldl_cons]
      exact ⟨hrest.1.trans hstep.1, hrest.2.trans hstep.2⟩

/-- Claim C10: throughout any run, every machine slot other than slot 0
keeps its initial setup state — `machine_setup[i]` stays `None` and
`setup_time[i]` stays 0 for every `i ≥ 1` — because the slot-selection
helper always yields slot 0. -/
theorem setup_state_only_slot_zero (vs : List MachiningVisit) (i : ℕ)
    (hi : 1 ≤ i) :
    (runSetup vs).machine_setup i = none ∧ (runSetup vs).setup_time i = 0 :=
  runSetup_frame_aux vs initSetup i hi

/-- Concrete instance of `setup_state_only_slot_zero`: one machining visit of
product `A` with two machines, slot 1 is untouched. -/
theorem setup_state_only_slot_zero_witness :
    (runSetup [⟨"A", 1, 2, 0, 2⟩]).machine_setup 1 = none ∧
      (runSetup [⟨"A", 1, 2, 0, 2⟩]).setup_time 1 = 0 :=
  setup_state_only_slot_zero [⟨"A", 1, 2, 0, 2⟩] 1 (by norm_num)

/-! ### What the stage processes record as waiting time (lines 70-74, 85-89) -/

/-- Value `machining_process` adds to `total_waiting_times['machining']`
for one unit, as a function of the pool-grant instant and the sampled
durations: after the optional setup block, `start_time = env.now` is taken
(line 70), the machining timeout elapses (lines 71-72), and
`wait_time = env.now - start_time` is recorded (lines 73-74). -/
def machining_recorded_wait (grant : ℚ) (needs_setup : Bool)
    (setup_d machining_time : ℚ) : ℚ :=
  let after_setup := grant + (if needs_setup then setup_d else 0)
  let start_time := after_setup
  let now_after := start_time + machining_time
  now_after - start_time

/-- Value `assembly_process` adds to `total_waiting_times['assembly']` for
one unit (lines 85-89): `start_time = env.now` right after the grant, then
the assembly timeout, then `wait_time = env.now - start_time`. -/
def assembly_recorded_wait (grant assembly_time : ℚ) : ℚ :=
  let start_time := grant
  let now_after := start_time + assembly_time
  now_after - start_time

/-- Modelled from the spec: the quantity the spec says is recorded, namely
`now − acquire-call-time` evaluated at the instant the token is granted
(the time spent blocked on the pool). -/
def spec_acquire_wait (acquire_call grant : ℚ) : ℚ := grant - acquire_call

/-- Claim C1 (code bug): the value the stage processes add to
`total_waiting_times` is exactly the sampled processing duration consumed
after the grant, not the acquire-to-grant blocking interval; at a concrete
input (grant at 0 with zero blocking, machining duration 5) the recorded
value 5 differs from the actual wait 0. -/
theorem recorded_wait_is_processing_duration :
    (∀ (grant : ℚ) (needs_setup : Bool) (setup_d machining_time : ℚ),
        machining_recorded_wait grant needs_setup setup_d machining_time =
          machining_time) ∧
      (∀ grant assembly_time : ℚ,
        assembly_recorded_wait grant assembly_time = assembly_time) ∧
      machining_recorded_wait 0 false 0 5 ≠ spec_acquire_wait 0 0 := by
  refine ⟨fun g ns sd md => ?_, fun g ad => ?_, ?_⟩
  · simp [machining_recorded_wait]
  · simp [assembly_recorded_wait]
  · simp [machining_recorded_wait, spec_acquire_wait]

/-! ### Construction (`Shift.__init__` lines 5-11, `ManufacturingSystem.__init__` lines 28-54) -/

/-- State stored by `Shift.__init__` (lines 5-11): the window bounds,
`is_active = False`, and the registered `run` process. -/
structure ShiftInitState where
  start_time : ℚ
  end_time : ℚ
  is_active : Bool
deriving DecidableEq, Repr

/-- Embedding of `Shift.__init__`: it stores its arguments and registers the
`run` process; it contains no validation and no failure path, so it always
succeeds. -/
def Shift_init (start_t end_t : ℚ) : Except String ShiftInitState :=
  Except.ok { start_time := start_t, end_time := end_t, is_active := false }

/-- State built by `ManufacturingSystem.__init__` (lines 28-54) relevant to
configuration: machine count, the shift, the setup-tracking state and the
zeroed metrics. -/
structure SystemInitState where
  machine_count : ℕ
  shift : ShiftInitState
  setup : SetupState
  metrics : Metrics

/-- Embedding of `ManufacturingSystem.__init__`: builds the resource pools,
the `Shift`, the setup-tracking dictionaries and the zeroed metrics; it
performs no validation of the shift window, so the only way it could fail is
if `Shift.__init__` failed — which it never does. -/
def ManufacturingSystem_init (machine_count : ℕ)
    (shift_start shift_end : ℚ) : Except String SystemInitState :=
  match Shift_init shift_start shift_end with
  | Except.error e => Except.error e
  | Except.ok sh =>
      Except.ok { machine_count, shift := sh, setup := initSetup
                  metrics := initMetrics }

/-! ### The shift state machine (`Shift.run`, lines 13-25) -/

/-- Python's float modulo by 24 for non-negative operands:
`t % 24 = t - 24 * floor(t / 24)`. -/
def qmod24 (t : ℚ) : ℚ := t - 24 * ((⌊t / 24⌋ : ℤ) : ℚ)

/-- Suspension points of the `Shift.run` generator: `loopTop` is any of the
three `yield`s that return to the top of the `while True` loop, and
`endActive now` is the first `yield` of the active branch (on resumption the
code sets `is_active = False` and sleeps `24 - (end_time - now)`, with `now`
the value captured at the loop top). -/
inductive ShiftKont
  | loopTop
  | endActive (now : ℚ)
deriving DecidableEq, Repr

/-- One suspended configuration of `Shift.run`: the simulated time at which
it next resumes, the current `is_active` value, and where it resumes. -/
structure ShiftState where
  time : ℚ
  active : Bool
  kont : ShiftKont
deriving DecidableEq, Repr

/-- One resumption of the `Shift.run` body (lines 13-25): from the loop top,
compute `now = env.now % 24` and take the branch the source takes (note the
first branch does not assign `is_active`); from `endActive`, set
`is_active = False` and sleep the remainder of the day. -/
def shiftStep (s e : ℚ) : ShiftState → ShiftState
  | ⟨t, a, ShiftKont.loopTop⟩ =>
      if qmod24 t < s then
        { time := t + (s - qmod24 t), active := a, kont := ShiftKont.loopTop }
      else if qmod24 t < e then
        { time := t + (e - qmod24 t), active := true
          kont := ShiftKont.endActive (qmod24 t) }
      else
        { time := t + (24 - qmod24 t + s), active := false
          kont := ShiftKont.loopTop }
  | ⟨t, _, ShiftKont.endActive now⟩ =>
      { time := t + (24 - (e - now)), active := false
        kont := ShiftKont.loopTop }

/-- Trace of `Shift.run` segment executions: `shiftTrace s e n` is the
configuration before the `n`-th resumption; the process is created at
simulated time 0 with `is_active = False` (line 10).  The `is_active` value
readable by any task during `[(shiftTrace s e n).time, (shiftTrace s e
(n+1)).time)` is `(shiftTrace s e (n+1)).active`, the value left by the
segment executed at `(shiftTrace s e n).time`. -/
def shiftTrace (s e : ℚ) : ℕ → ShiftState
  | 0 => { time := 0, active := false, kont := ShiftKont.loopTop }
  | n + 1 => shiftStep s e (shiftTrace s e n)

/-- Pure time-of-day predicate of the spec: active exactly when
`start_hour ≤ t % 24 < end_hour`. -/
def shift_pure (s e t : ℚ) : Bool := decide (s ≤ qmod24 t ∧ qmod24 t < e)

lemma qmod24_mul_add (k : ℤ) (x : ℚ) (h0 : 0 ≤ x) (h24 : x < 24) :
    qmod24 (24 * (k : ℚ) + x) = x := by
  have hx : ⌊x / 24⌋ = 0 := by
    rw [Int.floor_eq_zero_iff]
    constructor
    · positivity
    · rw [div_lt_one (by norm_num : (0:ℚ) < 24)]; exact h24
  have hdiv : (24 * (k : ℚ) + x) / 24 = (k : ℚ) + x / 24 := by ring
  have hfloor : ⌊(24 * (k : ℚ) + x) / 24⌋ = k := by
    rw [hdiv, Int.floor_int_add, hx, add_zero]
  unfold qmod24
  rw [hfloor]
  ring

lemma qmod24_self (x : ℚ) (h0 : 0 ≤ x) (h24 : x < 24) : qmod24 x = x := by
  have h := qmod24_mul_add 0 x h0 h24
  simpa using h

lemma qmod24_decomp (t : ℚ) :
    t = 24 * ((⌊t / 24⌋ : ℤ) : ℚ) + qmod24 t := by
  unfold qmod24; ring

lemma qmod24_nonneg (t : ℚ) : 0 ≤ qmod24 t := by
  have h := Int.floor_le (t / 24)
  unfold qmod24
  linarith

lemma qmod24_lt (t : ℚ) : qmod24 t < 24 := by
  have h := Int.lt_floor_add_one (t / 24)
  unfold qmod24
  push_cast at h ⊢
  linarith

lemma qmod24_add (t x : ℚ) (h0 : 0 ≤ qmod24 t + x) (h24 : qmod24 t + x < 24) :
    qmod24 (t + x) = qmod24 t + x := by
  have hdec : t + x = 24 * ((⌊t / 24⌋ : ℤ) : ℚ) + (qmod24 t + x) := by
    have h := qmod24_decomp t
    linarith
  rw [hdec, qmod24_mul_add _ _ h0 h24]

lemma qmod24_add_24 (t : ℚ) : qmod24 (t + 24) = qmod24 t := by
  have hdec : t + 24 = 24 * ((⌊t / 24⌋ + 1 : ℤ) : ℚ) + qmod24 t := by
    have h := qmod24_decomp t
    push_cast
    linarith
  rw [hdec, qmod24_mul_add _ _ (qmod24_nonneg t) (qmod24_lt t)]

/-- With a degenerate or overnight window (`end ≤ start`) the shift process
loops forever through the inactive branches: at every suspension point the
continuation is the loop top, `is_active` is `False`, and the time-of-day is
either 0 (only initially) or exactly `start`. -/
lemma shift_never_active_aux (s e : ℚ) (hs0 : 0 ≤ s) (hs24 : s < 24)
    (hes : e ≤ s) :
    ∀ n, (shiftTrace s e n).active = false ∧
      (shiftTrace s e n).kont = ShiftKont.loopTop ∧
      (qmod24 (shiftTrace s e n).time = 0 ∨
        qmod24 (shiftTrace s e n).time = s) := by
  intro n
  induction n with
  | zero =>
      refine ⟨rfl, rfl, Or.inl ?_⟩
      exact qmod24_self 0 le_rfl (by norm_num)
  | succ n ih =>
      obtain ⟨hact, hkont, hmod⟩ := ih
      rcases hst : shiftTrace s e n with ⟨T, A, K⟩
      rw [hst] at hact hkont hmod
      simp only at hact hkont hmod
      subst hact
      subst hkont
      have hstep : shiftTrace s e (n + 1) =
          shiftStep s e ⟨T, false, ShiftKont.loopTop⟩ := by
        show shiftStep s e (shiftTrace s e n) = _
        rw [hst]
      rw [hstep]
      rcases hmod with hmod | hmod
      · by_cases hlt : qmod24 T < s
        · rw [show shiftStep s e ⟨T, false, ShiftKont.loopTop⟩ =
              { time := T + (s - qmod24 T), active := false
                kont := ShiftKont.loopTop } by
            unfold shiftStep; dsimp only; rw [if_pos hlt]]
          refine ⟨rfl, rfl, Or.inr ?_⟩
          rw [hmod, sub_zero, qmod24_add _ _ (by rw [hmod]; linarith)
            (by rw [hmod]; linarith), hmod, zero_add]
        · have hse : s = 0 := by rw [hmod] at hlt; linarith
          have hne : ¬ qmod24 T < e := by
            rw [hmod]; rw [hse] at hes; linarith
          rw [show shiftStep s e ⟨T, false, ShiftKont.loopTop⟩ =
              { time := T + (24 - qmod24 T + s), active := false
                kont := ShiftKont.loopTop } by
            unfold shiftStep; dsimp only; rw [if_neg hlt, if_neg hne]]
          refine ⟨rfl, rfl, Or.inl ?_⟩
          rw [hmod, hse]
          have harg : T + (24 - 0 + 0) = T + 24 := by ring
          rw [harg, qmod24_add_24, hmod]
      · have hlt : ¬ qmod24 T < s := by rw [hmod]; exact lt_irrefl s
        have hne : ¬ qmod24 T < e := by rw [hmod]; linarith
        rw [show shiftStep s e ⟨T, false, ShiftKont.loopTop⟩ =
            { time := T + (24 - qmod24 T + s), active := false
              kont := ShiftKont.loopTop } by
          unfold shiftStep; dsimp only; rw [if_neg hlt, if_neg hne]]
        refine ⟨rfl, rfl, Or.inr ?_⟩
        rw [hmod]
        have harg : T + (24 - s + s) = T + 24 := by ring
        rw [harg, qmod24_add_24, hmod]

lemma qmod24_nat (k : ℕ) (x : ℚ) (h0 : 0 ≤ x) (h24 : x < 24) :
    qmod24 (24 * (k : ℚ) + x) = x := by
  have h := qmod24_mul_add (k : ℤ) x h0 h24
  push_cast at h
  exact h

/-- Closed form of the shift trace for a window with `0 < start`: after the
initial sleep to `start`, the process alternates forever between an active
segment `[start + 24k, end + 24k)` and an inactive remainder of the day. -/
lemma shiftTrace_form_pos (s e : ℚ) (hs : 0 < s) (hse : s < e) (he : e ≤ 24) :
    ∀ k : ℕ,
      shiftTrace s e (2 * k + 1) =
        { time := s + 24 * (k : ℚ), active := false
          kont := ShiftKont.loopTop } ∧
      shiftTrace s e (2 * k + 2) =
        { time := e + 24 * (k : ℚ), active := true
          kont := ShiftKont.endActive s } := by
  have hs24 : s < 24 := lt_of_lt_of_le hse he
  have key : ∀ t : ℚ, qmod24 t = s →
      shiftStep s e { time := t, active := false, kont := ShiftKont.loopTop } =
        { time := t + (e - s), active := true
          kont := ShiftKont.endActive s } := by
    intro t htq
    unfold shiftStep
    dsimp only
    rw [htq, if_neg (lt_irrefl s), if_pos hse]
  have hmod : ∀ k : ℕ, qmod24 (s + 24 * (k : ℚ)) = s := by
    intro k
    have h := qmod24_nat k s (le_of_lt hs) hs24
    rw [show s + 24 * (k : ℚ) = 24 * (k : ℚ) + s by ring]
    exact h
  intro k
  induction k with
  | zero =>
      have h1 : shiftTrace s e 1 =
          { time := s, active := false, kont := ShiftKont.loopTop } := by
        show shiftStep s e
            { time := 0, active := false, kont := ShiftKont.loopTop } = _
        unfold shiftStep
        dsimp only
        rw [qmod24_self 0 le_rfl (by norm_num), if_pos hs,
          show (0 : ℚ) + (s - 0) = s by ring]
      constructor
      · rw [show 2 * 0 + 1 = 1 by norm_num, h1, ShiftState.mk.injEq]
        refine ⟨by push_cast; ring, rfl, rfl⟩
      · have h2 : shiftTrace s e 2 = shiftStep s e (shiftTrace s e 1) := rfl
        rw [show 2 * 0 + 2 = 2 by norm_num, h2, h1,
          key s (by simpa using hmod 0), ShiftState.mk.injEq]
        refine ⟨by push_cast; ring, rfl, rfl⟩
  | succ k ih =>
      have hodd : shiftTrace s e (2 * (k + 1) + 1) =
          { time := s + 24 * ((k : ℚ) + 1), active := false
            kont := ShiftKont.loopTop } := by
        have hidx : 2 * (k + 1) + 1 = (2 * k + 2) + 1 := by ring
        rw [hidx]
        show shiftStep s e (shiftTrace s e (2 * k + 2)) = _
        rw [ih.2]
        unfold shiftStep
        dsimp only
        rw [ShiftState.mk.injEq]
        refine ⟨by ring, rfl, rfl⟩
      refine ⟨by rw [hodd]; push_cast; rfl, ?_⟩
      have hidx : 2 * (k + 1) + 2 = (2 * (k + 1) + 1) + 1 := by ring
      rw [hidx]
      show shiftStep s e (shiftTrace s e (2 * (k + 1) + 1)) = _
      rw [hodd, key (s + 24 * ((k : ℚ) + 1)) ?_, ShiftState.mk.injEq]
      · refine ⟨by push_cast; ring, rfl, rfl⟩
      · have h := hmod (k + 1)
        push_cast at h ⊢
        exact h

/-- Closed form of the shift trace for a window starting at hour 0: the
process is active on `[24k, e + 24k)` and inactive on the remainder of each
day. -/
lemma shiftTrace_form_zero (e : ℚ) (he0 : 0 < e) :
    ∀ k : ℕ,
      shiftTrace 0 e (2 * k + 1) =
        { time := e + 24 * (k : ℚ), active := true
          kont := ShiftKont.endActive 0 } ∧
      shiftTrace 0 e (2 * k + 2) =
        { time := 24 * ((k : ℚ) + 1), active := false
          kont := ShiftKont.loopTop } := by
  have key : ∀ t : ℚ, qmod24 t = 0 →
      shiftStep 0 e { time := t, active := false, kont := ShiftKont.loopTop } =
        { time := t + (e - 0), active := true
          kont := ShiftKont.endActive 0 } := by
    intro t htq
    unfold shiftStep
    dsimp only
    rw [htq, if_neg (lt_irrefl (0 : ℚ)), if_pos he0]
  intro k
  induction k with
  | zero =>
      have h1 : shiftTrace 0 e 1 =
          { time := e, active := true, kont := ShiftKont.endActive 0 } := by
        show shiftStep 0 e
            { time := 0, active := false, kont := ShiftKont.loopTop } = _
        rw [key 0 (qmod24_self 0 le_rfl (by norm_num)), ShiftState.mk.injEq]
        refine ⟨by ring, rfl, rfl⟩
      constructor
      · rw [show 2 * 0 + 1 = 1 by norm_num, h1, ShiftState.mk.injEq]
        refine ⟨by push_cast; ring, rfl, rfl⟩
      · rw [show 2 * 0 + 2 = 2 by norm_num]
        show shiftStep 0 e (shiftTrace 0 e 1) = _
        rw [h1]
        unfold shiftStep
        dsimp only
        rw [ShiftState.mk.injEq]
        refine ⟨by push_cast; ring, rfl, rfl⟩
  | succ k ih =>
      have hmodk : qmod24 (24 * ((k : ℚ) + 1)) = 0 := by
        have h := qmod24_nat (k + 1) 0 le_rfl (by norm_num)
        push_cast at h
        rw [show (24 : ℚ) * ((k : ℚ) + 1) = 24 * ((k : ℚ) + 1) + 0 by ring]
        exact h
      have hodd : shiftTrace 0 e (2 * (k + 1) + 1) =
          { time := e + 24 * ((k : ℚ) + 1), active := true
            kont := ShiftKont.endActive 0 } := by
        have hidx : 2 * (k + 1) + 1 = (2 * k + 2) + 1 := by ring
        rw [hidx]
        show shiftStep 0 e (shiftTrace 0 e (2 * k + 2)) = _
        rw [ih.2, key (24 * ((k : ℚ) + 1)) hmodk, ShiftState.mk.injEq]
        refine ⟨by ring, rfl, rfl⟩
      refine ⟨by rw [hodd]; push_cast; rfl, ?_⟩
      have hidx : 2 * (k + 1) + 2 = (2 * (k + 1) + 1) + 1 := by ring
      rw [hidx]
      show shiftStep 0 e (shiftTrace 0 e (2 * (k + 1) + 1)) = _
      rw [hodd]
      unfold shiftStep
      dsimp only
      rw [ShiftState.mk.injEq]
      refine ⟨by push_cast; ring, rfl, rfl⟩

lemma shift_pure_shifted (s e t : ℚ) (k : ℕ) (h0 : 0 ≤ t - 24 * (k : ℚ))
    (h24 : t - 24 * (k : ℚ) < 24) :
    shift_pure s e t =
      decide (s ≤ t - 24 * (k : ℚ) ∧ t - 24 * (k : ℚ) < e) := by
  unfold shift_pure
  have h := qmod24_nat k (t - 24 * (k : ℚ)) h0 h24
  rw [show 24 * (k : ℚ) + (t - 24 * (k : ℚ)) = t by ring] at h
  rw [h]

/-- Claim C3: for a valid shift window and any simulated time `t ≥ 0`, the
`is_active` value readable during the trace segment containing `t` equals
the pure time-of-day predicate `start ≤ t % 24 < end`, and some trace
segment does contain `t`. -/
theorem shift_is_active_pure (s e t : ℚ) (hs0 : 0 ≤ s) (hse : s < e)
    (he : e ≤ 24) (ht : 0 ≤ t) :
    (∀ n : ℕ, (shiftTrace s e n).time ≤ t →
        t < (shiftTrace s e (n + 1)).time →
        (shiftTrace s e (n + 1)).active = shift_pure s e t) ∧
      ∃ n : ℕ, (shiftTrace s e n).time ≤ t ∧
        t < (shiftTrace s e (n + 1)).time := by
  have hs24 : s < 24 := lt_of_lt_of_le hse he
  rcases hs0.eq_or_lt with hs | hs
  · -- window starting at hour 0
    have he0 : 0 < e := by linarith
    rw [← hs] at *
    have form := shiftTrace_form_zero e he0
    constructor
    · intro n h1 h2
      rcases Nat.even_or_odd n with ⟨j, hj⟩ | ⟨j, hj⟩
      · subst hj
        cases j with
        | zero =>
            rw [show (0 : ℕ) + 0 + 1 = 2 * 0 + 1 by norm_num, (form 0).1]
            rw [show (0 : ℕ) + 0 + 1 = 2 * 0 + 1 by norm_num,
              (form 0).1] at h2
            simp only at h2 ⊢
            rw [shift_pure_shifted 0 e t 0 (by push_cast; linarith)
              (by push_cast at h2 ⊢; linarith)]
            symm
            rw [decide_eq_true_eq]
            push_cast at h2 ⊢
            exact ⟨by linarith, by linarith⟩
        | succ i =>
            have hn : (i + 1) + (i + 1) = 2 * i + 2 := by ring
            rw [hn] at h1 h2 ⊢
            rw [(form i).2] at h1
            rw [show 2 * i + 2 + 1 = 2 * (i + 1) + 1 by ring,
              (form (i + 1)).1] at h2 ⊢
            simp only at h1 h2 ⊢
            push_cast at h1 h2
            rw [shift_pure_shifted 0 e t (i + 1) (by push_cast; linarith)
              (by push_cast; linarith)]
            symm
            rw [decide_eq_true_eq]
            push_cast
            exact ⟨by linarith, by linarith⟩
      · subst hj
        rw [(form j).1] at h1
        rw [show 2 * j + 1 + 1 = 2 * j + 2 by ring, (form j).2] at h2 ⊢
        simp only at h1 h2 ⊢
        rw [shift_pure_shifted 0 e t j (by linarith) (by linarith)]
        symm
        rw [decide_eq_false_iff_not]
        rintro ⟨-, hcon⟩
        linarith
    · obtain ⟨k, hlo, hhi⟩ :
          ∃ k : ℕ, 24 * (k : ℚ) ≤ t ∧ t < 24 * ((k : ℚ) + 1) := by
        have hK0 : 0 ≤ ⌊t / 24⌋ := Int.floor_nonneg.mpr (by positivity)
        have hkc : ((⌊t / 24⌋.toNat : ℕ) : ℚ) = ((⌊t / 24⌋ : ℤ) : ℚ) := by
          exact_mod_cast Int.toNat_of_nonneg hK0
        have hfl := Int.floor_le (t / 24)
        have hfu := Int.lt_floor_add_one (t / 24)
        refine ⟨⌊t / 24⌋.toNat, by rw [hkc]; linarith, ?_⟩
        rw [hkc]
        push_cast at hfu ⊢
        linarith
      by_cases hte : t < e + 24 * (k : ℚ)
      · cases k with
        | zero =>
            refine ⟨0, ht, ?_⟩
            rw [show (0 : ℕ) + 1 = 2 * 0 + 1 by norm_num, (form 0).1]
            simp only
            push_cast at hte ⊢
            linarith
        | succ i =>
            refine ⟨2 * i + 2, ?_, ?_⟩
            · rw [(form i).2]
              simp only
              push_cast at hlo ⊢
              linarith
            · rw [show 2 * i + 2 + 1 = 2 * (i + 1) + 1 by ring,
                (form (i + 1)).1]
              simp only
              push_cast at hte ⊢
              linarith
      · refine ⟨2 * k + 1, ?_, ?_⟩
        · rw [(form k).1]
          simp only
          linarith [not_lt.mp hte]
        · rw [show 2 * k + 1 + 1 = 2 * k + 2 by ring, (form k).2]
          simp only
          linarith
  · -- window starting after hour 0
    have form := shiftTrace_form_pos s e hs hse he
    constructor
    · intro n h1 h2
      rcases Nat.even_or_odd n with ⟨j, hj⟩ | ⟨j, hj⟩
      · subst hj
        cases j with
        | zero =>
            rw [show (0 : ℕ) + 0 + 1 = 2 * 0 + 1 by norm_num, (form 0).1]
            rw [show (0 : ℕ) + 0 + 1 = 2 * 0 + 1 by norm_num,
              (form 0).1] at h2
            simp only at h2 ⊢
            push_cast at h2
            rw [shift_pure_shifted s e t 0 (by push_cast; linarith)
              (by push_cast; linarith)]
            symm
            rw [decide_eq_false_iff_not]
            rintro ⟨hcon, -⟩
            push_cast at hcon
            linarith
        | succ i =>
            have hn : (i + 1) + (i + 1) = 2 * i + 2 := by ring
            rw [hn] at h1 h2 ⊢
            rw [(form i).2] at h1
            rw [show 2 * i + 2 + 1 = 2 * (i + 1) + 1 by ring,
              (form (i + 1)).1] at h2 ⊢
            simp only at h1 h2 ⊢
            push_cast at h1 h2
            by_cases hmid : t < 24 * ((i : ℚ) + 1)
            · rw [shift_pure_shifted s e t i (by linarith) (by linarith)]
              symm
              rw [decide_eq_false_iff_not]
              rintro ⟨-, hcon⟩
              linarith
            · push_cast at hmid
              rw [shift_pure_shifted s e t (i + 1)
                (by push_cast; linarith) (by push_cast; linarith)]
              symm
              rw [decide_eq_false_iff_not]
              rintro ⟨hcon, -⟩
              push_cast at hcon
              linarith
      · subst hj
        rw [(form j).1] at h1
        rw [show 2 * j + 1 + 1 = 2 * j + 2 by ring, (form j).2] at h2 ⊢
        simp only at h1 h2 ⊢
        rw [shift_pure_shifted s e t j (by linarith) (by linarith)]
        symm
        rw [decide_eq_true_eq]
        exact ⟨by linarith, by linarith⟩
    · by_cases hts : t < s
      · refine ⟨0, ht, ?_⟩
        rw [show (0 : ℕ) + 1 = 2 * 0 + 1 by norm_num, (form 0).1]
        simp only
        push_cast
        linarith
      · obtain ⟨k, hlo, hhi⟩ :
            ∃ k : ℕ, s + 24 * (k : ℚ) ≤ t ∧ t < s + 24 * ((k : ℚ) + 1) := by
          have hts' : s ≤ t := not_lt.mp hts
          have hK0 : 0 ≤ ⌊(t - s) / 24⌋ := by
            apply Int.floor_nonneg.mpr
            have h0ts : 0 ≤ t - s := by linarith
            positivity
          have hkc : ((⌊(t - s) / 24⌋.toNat : ℕ) : ℚ) =
              ((⌊(t - s) / 24⌋ : ℤ) : ℚ) := by
            exact_mod_cast Int.toNat_of_nonneg hK0
          have hfl := Int.floor_le ((t - s) / 24)
          have hfu := Int.lt_floor_add_one ((t - s) / 24)
          refine ⟨⌊(t - s) / 24⌋.toNat, by rw [hkc]; linarith, ?_⟩
          rw [hkc]
          push_cast at hfu ⊢
          linarith
        by_cases hte : t < e + 24 * (k : ℚ)
        · refine ⟨2 * k + 1, ?_, ?_⟩
          · rw [(form k).1]
            simp only
            linarith
          · rw [show 2 * k + 1 + 1 = 2 * k + 2 by ring, (form k).2]
            simp only
            linarith
        · refine ⟨2 * k + 2, ?_, ?_⟩
          · rw [(form k).2]
            simp only
            linarith [not_lt.mp hte]
          · rw [show 2 * k + 2 + 1 = 2 * (k + 1) + 1 by ring,
              (form (k + 1)).1]
            simp only
            push_cast at hhi ⊢
            linarith

/-- Concrete instance of `shift_is_active_pure`: window `8-20` at time 33
(time-of-day 9): the fourth trace segment `[32, 44)` contains 33 and its
`is_active` value agrees with the pure predicate. -/
theorem shift_is_active_pure_witness :
    (shiftTrace 8 20 3).time ≤ 33 ∧ 33 < (shiftTrace 8 20 4).time ∧
      (shiftTrace 8 20 4).active = shift_pure 8 20 33 := by
  have h := shift_is_active_pure 8 20 33 (by norm_num) (by norm_num)
    (by norm_num) (by norm_num)
  have h1 : (shiftTrace 8 20 3).time ≤ 33 := by
    rw [show (3 : ℕ) = 2 * 1 + 1 by norm_num,
      (shiftTrace_form_pos 8 20 (by norm_num) (by norm_num) (by norm_num) 1).1]
    norm_num
  have h2 : (33 : ℚ) < (shiftTrace 8 20 4).time := by
    rw [show (4 : ℕ) = 2 * 1 + 2 by norm_num,
      (shiftTrace_form_pos 8 20 (by norm_num) (by norm_num) (by norm_num) 1).2]
    norm_num
  exact ⟨h1, h2, h.1 3 h1 h2⟩

/-- Counterexample to claim C2: construction with the degenerate window
`shift_start = shift_end = 8` succeeds, and so does construction with the
overnight window `20-8` — no `ConfigurationError` is raised. -/
theorem construction_accepts_degenerate_window :
    (ManufacturingSystem_init 2 8 8).isOk = true ∧
      (ManufacturingSystem_init 2 20 8).isOk = true :=
  ⟨rfl, rfl⟩

/-- Claim C2 (amended): construction performs no validation and succeeds for
every shift window — degenerate, overnight or valid; a window with
`end ≤ start` (within a day) yields a shift that never becomes active, so
the simulation runs but the lines never produce. -/
theorem construction_never_fails :
    (∀ (machine_count : ℕ) (shift_start shift_end : ℚ),
        (ManufacturingSystem_init machine_count shift_start
          shift_end).isOk = true) ∧
      (∀ s e : ℚ, 0 ≤ s → s < 24 → e ≤ s →
        ∀ n, (shiftTrace s e n).active = false) := by
  constructor
  · intro machine_count shift_start shift_end
    rfl
  · intro s e hs0 hs24 hes n
    exact (shift_never_active_aux s e hs0 hs24 hes n).1

/-- Concrete instance of `construction_never_fails`: the degenerate window
`8-8` is accepted and its shift is still inactive at the sixth suspension
point. -/
theorem construction_never_fails_witness :
    (ManufacturingSystem_init 2 8 8).isOk = true ∧
      (shiftTrace 8 8 5).active = false :=
  ⟨construction_never_fails.1 2 8 8,
    construction_never_fails.2 8 8 (by norm_num) (by norm_num) le_rfl 5⟩

/-! ### The resource pool (spec section 4.3; the `simpy.Resource`
implementation is a library, not part of this repository's sources) -/

/-- Modelled from the spec: the state of a `ResourcePool` (the
`simpy.Resource` used at lines 31-34 is a third-party library).  `in_use`
counts issued tokens; `queue` holds the ids of blocked requesters in
arrival order; `arrivals` logs ids in the order requesters blocked;
`granted` logs ids in the order blocked requesters were handed a token;
`next_id` numbers blocked requesters by arrival. -/
structure PoolState where
  in_use : ℤ
  queue : List ℕ
  granted : List ℕ
  arrivals : List ℕ
  next_id : ℕ
deriving DecidableEq, Repr

/-- Empty pool: no token issued, nobody waiting. -/
def initPool : PoolState :=
  { in_use := 0, queue := [], granted := [], arrivals := [], next_id := 0 }

/-- An operation on the pool: a request (`with ... .request()`), or the
scoped release at the end of the `with` block. -/
inductive PoolOp
  | acquire
  | release
deriving DecidableEq, Repr

/-- Modelled from the spec: `acquire()` increments `in_use` and returns at
once when a token is free, otherwise suspends the caller at the tail of the
FIFO wait queue; release hands the token directly to the longest-waiting
suspended requester when the queue is non-empty (counts unchanged),
otherwise decrements `in_use`; a release only ever comes from a holder of a
token, so with no token issued it has no effect. -/
def poolStep (cap : ℤ) (st : PoolState) : PoolOp → PoolState
  | PoolOp.acquire =>
      if st.in_use < cap then { st with in_use := st.in_use + 1 }
      else
        { st with
            queue := st.queue ++ [st.next_id]
            arrivals := st.arrivals ++ [st.next_id]
            next_id := st.next_id + 1 }
  | PoolOp.release =>
      match st.queue with
      | [] => if 0 < st.in_use then { st with in_use := st.in_use - 1 } else st
      | x :: rest => { st with queue := rest, granted := st.granted ++ [x] }

/-- Pool state after a sequence of acquire/release operations. -/
def runPool (cap : ℤ) (ops : List PoolOp) : PoolState :=
  ops.foldl (poolStep cap) initPool

lemma poolStep_in_use (cap : ℤ) (st : PoolState) (op : PoolOp)
    (h : 0 ≤ st.in_use ∧ st.in_use ≤ cap) :
    0 ≤ (poolStep cap st op).in_use ∧ (poolStep cap st op).in_use ≤ cap := by
  cases op with
  | acquire =>
      by_cases hlt : st.in_use < cap
      · simp only [poolStep, if_pos hlt]
        exact ⟨by omega, by omega⟩
      · simp only [poolStep, if_neg hlt]
        exact h
  | release =>
      rcases hq : st.queue with _ | ⟨x, rest⟩
      · by_cases hpos : 0 < st.in_use
        · simp only [poolStep, hq, if_pos hpos]
          exact ⟨by omega, by omega⟩
        · simp only [poolStep, hq, if_neg hpos]
          exact h
      · simp only [poolStep, hq]
        exact h

lemma runPool_in_use_aux (cap : ℤ) (ops : List PoolOp) :
    ∀ st : PoolState, 0 ≤ st.in_use ∧ st.in_use ≤ cap →
      0 ≤ (ops.foldl (poolStep cap) st).in_use ∧
        (ops.foldl (poolStep cap) st).in_use ≤ cap := by
  induction ops with
  | nil => intro st h; simpa using h
  | cons op rest ih =>
      intro st h
      simpa using ih (poolStep cap st op) (poolStep_in_use cap st op h)

/-- Claim C4: for every capacity `C ≥ 1` and every sequence of acquire and
release operations, the number of tokens in use stays within `[0, C]`. -/
theorem pool_in_use_bounded (cap : ℤ) (ops : List PoolOp) (hcap : 1 ≤ cap) :
    0 ≤ (runPool cap ops).in_use ∧ (runPool cap ops).in_use ≤ cap :=
  runPool_in_use_aux cap ops initPool
    ⟨le_rfl, by show (0 : ℤ) ≤ cap; linarith⟩

/-- Concrete instance of `pool_in_use_bounded`: capacity 2 with three
acquires and one release. -/
theorem pool_in_use_bounded_witness :
    0 ≤ (runPool 2 [PoolOp.acquire, PoolOp.acquire, PoolOp.acquire,
        PoolOp.release]).in_use ∧
      (runPool 2 [PoolOp.acquire, PoolOp.acquire, PoolOp.acquire,
        PoolOp.release]).in_use ≤ 2 :=
  pool_in_use_bounded 2 [PoolOp.acquire, PoolOp.acquire, PoolOp.acquire,
    PoolOp.release] (by norm_num)

lemma poolStep_fifo (cap : ℤ) (st : PoolState) (op : PoolOp)
    (h : st.granted ++ st.queue = st.arrivals) :
    (poolStep cap st op).granted ++ (poolStep cap st op).queue =
      (poolStep cap st op).arrivals := by
  cases op with
  | acquire =>
      by_cases hlt : st.in_use < cap
      · simp only [poolStep, if_pos hlt]
        exact h
      · simp only [poolStep, if_neg hlt]
        rw [← List.append_assoc, h]
  | release =>
      rcases hq : st.queue with _ | ⟨x, rest⟩
      · by_cases hpos : 0 < st.in_use
        · simp only [poolStep, hq, if_pos hpos]
          rw [hq] at h
          exact h
        · simp only [poolStep, hq, if_neg hpos]
          rw [hq] at h
          simpa [hq] using h
      · simp only [poolStep, hq]
        rw [hq] at h
        rw [List.append_assoc, List.singleton_append]
        exact h

lemma runPool_fifo_aux (cap : ℤ) (ops : List PoolOp) :
    ∀ st : PoolState, st.granted ++ st.queue = st.arrivals →
      (ops.foldl (poolStep cap) st).granted ++
          (ops.foldl (poolStep cap) st).queue =
        (ops.foldl (poolStep cap) st).arrivals := by
  induction ops with
  | nil => intro st h; simpa using h
  | cons op rest ih =>
      intro st h
      simpa using ih (poolStep cap st op) (poolStep_fifo cap st op h)

/-- Claim C5: grants on a pool are strict FIFO — after any operation
sequence, the log of granted (formerly blocked) requesters followed by the
still-waiting queue is exactly the arrival log, so whoever blocked earlier
is granted earlier, and nobody is skipped. -/
theorem pool_grants_fifo (cap : ℤ) (ops : List PoolOp) :
    (runPool cap ops).granted ++ (runPool cap ops).queue =
      (runPool cap ops).arrivals :=
  runPool_fifo_aux cap ops initPool rfl

/-! ### Completion times of one unit's pipeline pass
(`run_production` lines 116-127 and the four stage processes) -/

/-- Timing data of one unit's pass through the pipeline: the time its line
starts it, the acquire-to-grant wait at each pool, and the sampled
durations of each stage's timeouts (`setup` and `repair` are 0 when the
corresponding branch is not taken). -/
structure UnitRun where
  start : ℚ
  mach_wait : ℚ
  setup : ℚ
  mach_d : ℚ
  repair : ℚ
  asm_wait : ℚ
  asm_d : ℚ
  qc_wait : ℚ
  qc_d : ℚ
  pack_wait : ℚ
  pack_d : ℚ
deriving DecidableEq, Repr

/-- Instant at which `machining_process` increments its counters: grant
after the wait, optional setup timeout, then the machining timeout
(lines 61-75). -/
def mach_done (u : UnitRun) : ℚ := u.start + u.mach_wait + u.setup + u.mach_d

/-- Instant at which `assembly_process` increments its counters: machining
(plus its optional repair timeout, lines 77-80) finishes first, then the
assembly pool wait and the assembly timeout (lines 82-90). -/
def asm_done (u : UnitRun) : ℚ :=
  mach_done u + u.repair + u.asm_wait + u.asm_d

/-- Instant at which `quality_control_process` increments its counters
(lines 93-101). -/
def qc_done (u : UnitRun) : ℚ := asm_done u + u.qc_wait + u.qc_d

/-- Instant at which `packaging_process` increments its counters and
`total_products_produced` (lines 104-114). -/
def pack_done (u : UnitRun) : ℚ := qc_done u + u.pack_wait + u.pack_d

/-- Completion instant of the counter increments of each stage. -/
def stage_done : Stage → UnitRun → ℚ
  | Stage.machining => mach_done
  | Stage.assembly => asm_done
  | Stage.quality_control => qc_done
  | Stage.packaging => pack_done

/-- Constraints the source puts on a unit's timing data: the unit starts at
a simulated time ≥ 0, waits are non-negative, and each sampled duration
lies above the lower bound of the `random.uniform` interval the source
draws it from (machining 4-6, assembly 2-4, quality control 1-2, packaging
0.5-1.5; setup and repair are 0 or drawn from 0.5-1.5 and 1-3). -/
def SampleBounds (u : UnitRun) : Prop :=
  0 ≤ u.start ∧ 0 ≤ u.mach_wait ∧ 0 ≤ u.setup ∧ 4 ≤ u.mach_d ∧
    0 ≤ u.repair ∧ 0 ≤ u.asm_wait ∧ 2 ≤ u.asm_d ∧ 0 ≤ u.qc_wait ∧
    1 ≤ u.qc_d ∧ 0 ≤ u.pack_wait ∧ 1 / 2 ≤ u.pack_d

instance (u : UnitRun) : Decidable (SampleBounds u) := by
  unfold SampleBounds
  infer_instance

/-- Number of units whose completion event at the given instant-function is
due by the horizon — only such events execute in `env.run(until=horizon)`
(spec section 4.1). -/
def doneCount (horizon : ℚ) (us : List UnitRun) (f : UnitRun → ℚ) : ℕ :=
  (us.filter fun u => decide (f u ≤ horizon)).length

/-- Value of `processed_parts[s]` visible after running to the horizon. -/
def processedAt (horizon : ℚ) (us : List UnitRun) (s : Stage) : ℕ :=
  doneCount horizon us (stage_done s)

/-- Value of `total_products_produced` visible after running to the
horizon: incremented exactly when a packaging completion executes. -/
def producedAt (horizon : ℚ) (us : List UnitRun) : ℕ :=
  doneCount horizon us pack_done

lemma stage_done_pos (u : UnitRun) (hb : SampleBounds u) (s : Stage) :
    0 < stage_done s u := by
  obtain ⟨h1, h2, h3, h4, h5, h6, h7, h8, h9, h10, h11⟩ := hb
  cases s <;>
    · simp only [stage_done, mach_done, asm_done, qc_done, pack_done]
      linarith

lemma doneCount_zero (us : List UnitRun) (f : UnitRun → ℚ)
    (hpos : ∀ u ∈ us, 0 < f u) : doneCount 0 us f = 0 := by
  unfold doneCount
  rw [List.length_eq_zero, List.filter_eq_nil_iff]
  intro u hu
  simp only [decide_eq_true_eq, not_le]
  exact hpos u hu

/-- Claim C7: with horizon 0 every stage's `processed_parts` counter and
`total_products_produced` are zero — every counter increment happens after
at least one strictly positive sampled timeout, so no completion event is
due at time 0. -/
theorem horizon_zero_processes_nothing (us : List UnitRun)
    (hb : ∀ u ∈ us, SampleBounds u) :
    (∀ s : Stage, processedAt 0 us s = 0) ∧ producedAt 0 us = 0 := by
  constructor
  · intro s
    exact doneCount_zero us (stage_done s)
      fun u hu => stage_done_pos u (hb u hu) s
  · exact doneCount_zero us pack_done
      fun u hu => stage_done_pos u (hb u hu) Stage.packaging

/-- Concrete instance of `horizon_zero_processes_nothing`: one unit with
mid-range samples; nothing is processed and nothing is produced at
horizon 0. -/
theorem horizon_zero_processes_nothing_witness :
    processedAt 0 [⟨0, 0, 0, 5, 0, 0, 3, 0, 3 / 2, 0, 1⟩]
        Stage.packaging = 0 ∧
      producedAt 0 [⟨0, 0, 0, 5, 0, 0, 3, 0, 3 / 2, 0, 1⟩] = 0 :=
  ⟨(horizon_zero_processes_nothing _ (by
      simp only [List.mem_singleton, forall_eq, SampleBounds]
      norm_num)).1 Stage.packaging,
    (horizon_zero_processes_nothing _ (by
      simp only [List.mem_singleton, forall_eq, SampleBounds]
      norm_num)).2⟩

/-! ### The event-queue scheduling rule (spec section 4.1; the event loop
of `simpy` is a library, not part of this repository's sources) -/

/-- Modelled from the spec: a pending event of the event queue, carrying
its deadline and its insertion id (the tie-breaker: arrival order into the
queue). -/
structure Ev where
  deadline : ℚ
  eid : ℕ
deriving DecidableEq, Repr

/-- Strict scheduling priority of the spec: earlier deadline first, equal
deadlines broken by insertion order. -/
def evBefore (a b : Ev) : Prop :=
  a.deadline < b.deadline ∨ (a.deadline = b.deadline ∧ a.eid < b.eid)

/-- Modelled from the spec: one scheduler step pops a pending event that
strictly precedes every other pending event. -/
inductive PopStep : List Ev → Ev → List Ev → Prop
  | pop (q : List Ev) (a : Ev) (ha : a ∈ q)
      (hmin : ∀ b ∈ q, b ≠ a → evBefore a b) : PopStep q a (q.erase a)

/-- Modelled from the spec: a run of the scheduler; `PopTrace q l r` means
that starting from pending-event queue `q` the scheduler pops the events
`l` in that order, leaving `r` pending. -/
inductive PopTrace : List Ev → List Ev → List Ev → Prop
  | nil (q : List Ev) : PopTrace q [] q
  | cons (q : List Ev) (a : Ev) (q' l r : List Ev) :
      PopStep q a q' → PopTrace q' l r → PopTrace q (a :: l) r

lemma evBefore_asymm (a b : Ev) (h1 : evBefore a b) (h2 : evBefore b a) :
    False := by
  rcases h1 with h1 | ⟨h1d, h1e⟩
  · rcases h2 with h2 | ⟨h2d, h2e⟩
    · linarith
    · rw [h2d] at h1
      exact lt_irrefl _ h1
  · rcases h2 with h2 | ⟨h2d, h2e⟩
    · rw [h1d] at h2
      exact lt_irrefl _ h2
    · omega

lemma popStep_unique (q : List Ev) (a b : Ev) (qa qb : List Ev)
    (ha : PopStep q a qa) (hb : PopStep q b qb) : a = b ∧ qa = qb := by
  cases ha with
  | pop hamem hamin =>
      cases hb with
      | pop hbmem hbmin =>
          by_cases hab : a = b
          · subst hab
            exact ⟨rfl, rfl⟩
          · exact (evBefore_asymm a b
              (hamin b hbmem fun hba => hab hba.symm)
              (hbmin a hamem hab)).elim

lemma popTrace_det {q l1 r1 : List Ev} (h1 : PopTrace q l1 r1) :
    ∀ {l2 r2 : List Ev}, PopTrace q l2 r2 → l1.length = l2.length →
      l1 = l2 ∧ r1 = r2 := by
  induction h1 with
  | nil q =>
      intro l2 r2 h2 hlen
      cases h2 with
      | nil => exact ⟨rfl, rfl⟩
      | cons _ _ _ _ _ _ _ => simp at hlen
  | cons q a q' l r hstep htrace ih =>
      intro l2 r2 h2 hlen
      cases h2 with
      | nil => simp at hlen
      | cons _ b qb lb _ hstepb htraceb =>
          obtain ⟨hab, hq⟩ := popStep_unique q a b q' qb hstep hstepb
          subst hab
          rw [← hq] at htraceb
          have hres := ih htraceb (by simpa using hlen)
          exact ⟨by rw [hres.1], hres.2⟩

/-- Claim C9: the scheduler's interleaving is deterministic — two runs of
the event loop from the same pending-event queue that pop the same number
of events pop the same events in the same order and leave the same queue;
with the PRNG stream fixed by the seed, the whole simulation is therefore
a function of configuration and seed, and identical inputs give identical
metrics snapshots. -/
theorem scheduler_pop_deterministic (q l1 r1 l2 r2 : List Ev)
    (h1 : PopTrace q l1 r1) (h2 : PopTrace q l2 r2)
    (hlen : l1.length = l2.length) : l1 = l2 ∧ r1 = r2 :=
  popTrace_det h1 h2 hlen

/-- Concrete instance of `scheduler_pop_deterministic`: from the
single-event queue, the one-step run is unique. -/
theorem scheduler_pop_deterministic_witness :
    [(⟨0, 0⟩ : Ev)] = [⟨0, 0⟩] ∧ ([] : List Ev) = [] := by
  have hstep : PopStep [(⟨0, 0⟩ : Ev)] ⟨0, 0⟩ [] := by
    have h := PopStep.pop [(⟨0, 0⟩ : Ev)] ⟨0, 0⟩ (by simp)
      (by
        intro b hb hne
        rw [List.mem_singleton] at hb
        exact absurd hb hne)
    simpa using h
  have htr : PopTrace [(⟨0, 0⟩ : Ev)] [⟨0, 0⟩] [] :=
    PopTrace.cons _ _ _ _ _ hstep (PopTrace.nil [])
  exact scheduler_pop_deterministic [⟨0, 0⟩] [⟨0, 0⟩] [] [⟨0, 0⟩] []
    htr htr rfl

end MfgSys
